import Mathlib

/-!
Verification of the string-processing and instrumentation logic of
`timecomp.py` (GRPO fine-tuning script).

Strings are embedded as `List Char`.  Python's `str.split(sep)` (with a
non-empty separator) is embedded as `pySplit`, Python's `str.strip()` as
`pyStrip`, and the regular-expression match of `format_reward_func` as the
deterministic matcher `reMatchFormat` derived from the pattern
`^<reasoning>(?:(?!</reasoning>).)*</reasoning>\n<answer>(?:(?!</answer>).)*</answer>$`
under Python `re` semantics (`.` does not match a newline, and `$` matches at
the end of the string or just before a trailing newline).
-/

namespace Timecomp

/-- The literal `"####"` used by `extract_hash_answer`. -/
def hashSep : List Char := ['#', '#', '#', '#']

/-- The literal `"<reasoning>"`. -/
def rOpenTag : List Char := ['<', 'r', 'e', 'a', 's', 'o', 'n', 'i', 'n', 'g', '>']

/-- The literal `"</reasoning>"`. -/
def rCloseTag : List Char := ['<', '/', 'r', 'e', 'a', 's', 'o', 'n', 'i', 'n', 'g', '>']

/-- The literal `"<answer>"`. -/
def aOpenTag : List Char := ['<', 'a', 'n', 's', 'w', 'e', 'r', '>']

/-- The literal `"</answer>"`. -/
def aCloseTag : List Char := ['<', '/', 'a', 'n', 's', 'w', 'e', 'r', '>']

/-- Python whitespace characters stripped by `str.strip()` (ASCII range;
Python additionally strips some non-ASCII Unicode spaces, which no claim
depends on). -/
def pyIsSpace (c : Char) : Bool :=
  c = ' ' || c = '\t' || c = '\n' || c = '\x0d' || c = '\x0b' || c = '\x0c'

/-- Python `str.strip()`: remove leading and trailing whitespace. -/
def pyStrip (l : List Char) : List Char :=
  ((l.dropWhile pyIsSpace).reverse.dropWhile pyIsSpace).reverse

/-- Split a list at the first occurrence of `sep`: returns the part before
the occurrence and the part after it, or `none` when `sep` does not occur. -/
def splitFirst (sep : List Char) : List Char → Option (List Char × List Char)
  | [] => if sep.isPrefixOf ([] : List Char) then some ([], []) else none
  | c :: rest =>
    if sep.isPrefixOf (c :: rest) then some ([], (c :: rest).drop sep.length)
    else
      match splitFirst sep rest with
      | some (pre, post) => some (c :: pre, post)
      | none => none

theorem splitFirst_none_iff (sep : List Char) :
    ∀ l : List Char, splitFirst sep l = none ↔ ¬ sep <:+: l := by
  intro l
  induction l with
  | nil =>
    by_cases h : sep.isPrefixOf ([] : List Char)
    · have hsep : sep = [] := by
        obtain ⟨t, ht⟩ := List.isPrefixOf_iff_prefix.mp h
        exact (List.append_eq_nil.mp ht).1
      subst hsep
      simp [splitFirst]
    · have hsep : sep ≠ [] := by
        intro hs; subst hs; simp [List.isPrefixOf] at h
      simp only [splitFirst, if_neg h]
      refine iff_of_true (by simp) ?_
      intro hinf
      obtain ⟨s, t, hst⟩ := hinf
      exact hsep (List.append_eq_nil.mp (List.append_eq_nil.mp hst).1).2
  | cons c rest ih =>
    by_cases h : sep.isPrefixOf (c :: rest)
    · simp only [splitFirst, if_pos h]
      refine iff_of_false (by simp) ?_
      intro hni
      obtain ⟨t, ht⟩ := List.isPrefixOf_iff_prefix.mp h
      exact hni ⟨[], t, by simpa using ht⟩
    · simp only [splitFirst, if_neg h]
      rw [List.infix_cons_iff]
      cases hs : splitFirst sep rest with
      | none =>
        refine iff_of_true (by simp) ?_
        push_neg
        exact ⟨fun hp => h (List.isPrefixOf_iff_prefix.mpr hp), ih.mp hs⟩
      | some pr =>
        refine iff_of_false (by simp) ?_
        intro hni
        apply hni
        right
        by_contra hni2
        rw [ih.mpr hni2] at hs
        exact absurd hs (by simp)

theorem splitFirst_of_isPrefixOf (sep l : List Char) (h : sep.isPrefixOf l) :
    splitFirst sep l = some ([], l.drop sep.length) := by
  cases l with
  | nil =>
    have hsep : sep = [] := by
      obtain ⟨t, ht⟩ := List.isPrefixOf_iff_prefix.mp h
      exact (List.append_eq_nil.mp ht).1
    subst hsep
    simp [splitFirst]
  | cons c rest => simp only [splitFirst, if_pos h]

theorem splitFirst_of_first_occurrence (sep : List Char) :
    ∀ (a b : List Char),
      (∀ i, i < a.length → ¬ sep.isPrefixOf ((a ++ (sep ++ b)).drop i)) →
      splitFirst sep (a ++ (sep ++ b)) = some (a, b) := by
  intro a
  induction a with
  | nil =>
    intro b _
    have hpre : sep.isPrefixOf (sep ++ b) := List.isPrefixOf_iff_prefix.mpr ⟨b, rfl⟩
    rw [List.nil_append, splitFirst_of_isPrefixOf _ _ hpre, List.drop_left]
  | cons c a' ih =>
    intro b hfirst
    have h0 : ¬ sep.isPrefixOf (c :: (a' ++ (sep ++ b))) := by
      have := hfirst 0 (by simp)
      simpa using this
    have hshift : ∀ i, i < a'.length → ¬ sep.isPrefixOf ((a' ++ (sep ++ b)).drop i) := by
      intro i hi
      have := hfirst (i + 1) (by simp; omega)
      simpa [List.drop_succ_cons] using this
    have hrw : (c :: a') ++ (sep ++ b) = c :: (a' ++ (sep ++ b))  := by simp
    rw [hrw]
    simp only [splitFirst, if_neg h0]
    rw [ih b hshift]

theorem splitFirst_some_spec (sep : List Char) :
    ∀ (l a b : List Char), splitFirst sep l = some (a, b) →
      l = a ++ (sep ++ b) ∧ ∀ i, i < a.length → ¬ sep.isPrefixOf (l.drop i) := by
  intro l
  induction l with
  | nil =>
    intro a b h
    simp [splitFirst] at h
    obtain ⟨rfl, rfl, rfl⟩ := h
    exact ⟨rfl, by intro i hi; simp at hi⟩
  | cons c rest ih =>
    intro a b h
    by_cases hp : sep.isPrefixOf (c :: rest)
    · simp only [splitFirst, if_pos hp] at h
      obtain ⟨rfl, rfl⟩ : [] = a ∧ (c :: rest).drop sep.length = b := by
        constructor <;> [exact congrArg Prod.fst (Option.some.inj h); exact congrArg Prod.snd (Option.some.inj h)]
      refine ⟨?_, by intro i hi; simp at hi⟩
      obtain ⟨t, ht⟩ := List.isPrefixOf_iff_prefix.mp hp
      rw [List.nil_append, ← ht, List.drop_left]
    · simp only [splitFirst, if_neg hp] at h
      cases hs : splitFirst sep rest with
      | none => rw [hs] at h; exact absurd h (by simp)
      | some pr =>
        obtain ⟨pre, post⟩ := pr
        rw [hs] at h
        obtain ⟨rfl, rfl⟩ : c :: pre = a ∧ post = b := by
          constructor <;> [exact congrArg Prod.fst (Option.some.inj h); exact congrArg Prod.snd (Option.some.inj h)]
        obtain ⟨hl, hmin⟩ := ih pre post hs
        constructor
        · rw [List.cons_append, ← hl]
        · intro i hi
          cases i with
          | zero => simpa using hp
          | succ j =>
            have := hmin j (by simp at hi; omega)
            simpa [List.drop_succ_cons] using this

/-- `sep` has no proper border: no nonempty proper suffix of `sep` is also a
prefix of `sep`.  Equivalently, two occurrences of `sep` can never overlap. -/
def bordFree (sep : List Char) : Prop :=
  ∀ d, d < sep.length → 0 < d → sep.drop d ≠ sep.take (sep.length - d)

/-- Core overlap argument: if `sep ++ b = t ++ (sep ++ c)` with `t` nonempty
and `sep` border-free, the two `sep` occurrences cannot overlap, so `t` is at
least as long as `sep`. -/
theorem append_overlap_le (sep t b c : List Char) (hb : bordFree sep)
    (ht : t ≠ []) (heq : sep ++ b = t ++ (sep ++ c)) : sep.length ≤ t.length := by
  by_contra hlt
  push_neg at hlt
  have hd0 : 0 < t.length := List.length_pos.mpr ht
  have h1 : (sep ++ b).drop t.length = sep.drop t.length ++ b :=
    List.drop_append_of_le_length (le_of_lt hlt)
  have h2 : (t ++ (sep ++ c)).drop t.length = sep ++ c := List.drop_left t (sep ++ c)
  have h3 : sep.drop t.length ++ b = sep ++ c := by rw [← h1, heq, h2]
  have h4 : (sep.drop t.length ++ b).take (sep.length - t.length) = sep.drop t.length := by
    rw [List.take_append_of_le_length (by simp)]
    rw [show sep.length - t.length = (sep.drop t.length).length by simp, List.take_length]
  have h5 : (sep ++ c).take (sep.length - t.length) = sep.take (sep.length - t.length) :=
    List.take_append_of_le_length (by omega)
  exact hb t.length hlt hd0 (by rw [← h4, h3, h5])

/-- If `sep` is border-free and does not occur inside `A`, then in
`A ++ (sep ++ suf)` no occurrence of `sep` starts before position `A.length`. -/
theorem no_early_occurrence (sep A suf : List Char) (hb : bordFree sep)
    (hA : ¬ sep <:+: A) :
    ∀ i, i < A.length → ¬ sep.isPrefixOf ((A ++ (sep ++ suf)).drop i) := by
  intro i hi hpref
  have hdrop : (A ++ (sep ++ suf)).drop i = A.drop i ++ (sep ++ suf) :=
    List.drop_append_of_le_length (le_of_lt hi)
  rw [hdrop] at hpref
  obtain ⟨bb, hbb⟩ := List.isPrefixOf_iff_prefix.mp hpref
  have ht : A.drop i ≠ [] := by
    intro hnil
    have : (A.drop i).length = 0 := by rw [hnil]; rfl
    simp at this
    omega
  have hle : sep.length ≤ (A.drop i).length :=
    append_overlap_le sep (A.drop i) bb suf hb ht (by rw [hbb])
  have htake : (A.drop i).take sep.length = sep := by
    have h6 : (sep ++ bb).take sep.length = sep := by
      rw [List.take_append_of_le_length (le_refl sep.length), List.take_length]
    rw [hbb, List.take_append_of_le_length hle] at h6
    exact h6
  apply hA
  refine ⟨A.take i, (A.drop i).drop sep.length, ?_⟩
  have hA2 : A.take i ++ ((A.drop i).take sep.length ++ (A.drop i).drop sep.length) = A := by
    rw [List.take_append_drop, List.take_append_drop]
  rw [htake] at hA2
  rw [← List.append_assoc] at hA2
  exact hA2

/-- Fuel-indexed worker for `pySplit`; the fuel only serves termination and is
irrelevant once it exceeds the length of the list (`pySplitAux_congr`). -/
def pySplitAux (sep : List Char) : Nat → List Char → List (List Char)
  | 0, l => [l]
  | Nat.succ fuel, l =>
    match splitFirst sep l with
    | none => [l]
    | some (a, b) => a :: pySplitAux sep fuel b

/-- Python `str.split(sep)` for a non-empty separator: the segments of the
list between consecutive (non-overlapping, leftmost-first) occurrences of
`sep`.  Always returns a non-empty list of segments. -/
def pySplit (sep l : List Char) : List (List Char) :=
  pySplitAux sep (l.length + 1) l

theorem splitFirst_shrinks (sep l a b : List Char) (hsep : sep ≠ [])
    (h : splitFirst sep l = some (a, b)) : b.length < l.length := by
  obtain ⟨hl, _⟩ := splitFirst_some_spec sep l a b h
  have : l.length = a.length + (sep.length + b.length) := by
    rw [hl]; simp
  have hs : 0 < sep.length := List.length_pos.mpr hsep
  omega

theorem pySplitAux_congr (sep : List Char) (hsep : sep ≠ []) :
    ∀ n fuel fuel' l, l.length ≤ n → l.length < fuel → l.length < fuel' →
      pySplitAux sep fuel l = pySplitAux sep fuel' l := by
  intro n
  induction n with
  | zero =>
    intro fuel fuel' l hn hf hf'
    have hl : l = [] := List.length_eq_zero.mp (Nat.le_zero.mp hn)
    subst hl
    obtain ⟨f1, rfl⟩ : ∃ k, fuel = k + 1 := ⟨fuel - 1, by omega⟩
    obtain ⟨f2, rfl⟩ : ∃ k, fuel' = k + 1 := ⟨fuel' - 1, by omega⟩
    simp only [pySplitAux]
    cases hs : splitFirst sep ([] : List Char) with
    | none => rfl
    | some pr =>
      obtain ⟨a, b⟩ := pr
      have := splitFirst_shrinks sep [] a b hsep hs
      simp at this
  | succ n ih =>
    intro fuel fuel' l hn hf hf'
    obtain ⟨f1, rfl⟩ : ∃ k, fuel = k + 1 := ⟨fuel - 1, by omega⟩
    obtain ⟨f2, rfl⟩ : ∃ k, fuel' = k + 1 := ⟨fuel' - 1, by omega⟩
    simp only [pySplitAux]
    cases hs : splitFirst sep l with
    | none => rfl
    | some pr =>
      obtain ⟨a, b⟩ := pr
      have hb := splitFirst_shrinks sep l a b hsep hs
      have := ih f1 f2 b (by omega) (by omega) (by omega)
      simp [this]

theorem pySplit_of_none (sep l : List Char) (h : splitFirst sep l = none) :
    pySplit sep l = [l] := by
  unfold pySplit
  simp only [pySplitAux, h]

theorem pySplit_of_some (sep l a b : List Char) (hsep : sep ≠ [])
    (h : splitFirst sep l = some (a, b)) : pySplit sep l = a :: pySplit sep b := by
  have hb := splitFirst_shrinks sep l a b hsep h
  show pySplitAux sep (l.length + 1) l = a :: pySplitAux sep (b.length + 1) b
  have h1 : pySplitAux sep (l.length + 1) l = a :: pySplitAux sep l.length b := by
    simp only [pySplitAux, h]
  rw [h1,
    pySplitAux_congr sep hsep b.length l.length (b.length + 1) b (le_refl _) hb (by omega)]

theorem pySplit_ne_nil (sep l : List Char) : pySplit sep l ≠ [] := by
  unfold pySplit
  simp only [pySplitAux]
  cases splitFirst sep l with
  | none => simp
  | some pr => obtain ⟨a, b⟩ := pr; simp

theorem getLast?_cons_ne {α : Type} (c : α) (xs : List α) (h : xs ≠ []) :
    (c :: xs).getLast? = xs.getLast? := by
  cases xs with
  | nil => exact absurd rfl h
  | cons y ys => exact List.getLast?_cons_cons

/-- The last segment of `pySplit sep (pre ++ (sep ++ rest))` is `rest` when
`sep` is border-free and does not occur in `rest`. -/
theorem pySplit_getLast (sep : List Char) (hb : bordFree sep) (hsep : sep ≠ []) :
    ∀ n pre rest, pre.length ≤ n → ¬ sep <:+: rest →
      (pySplit sep (pre ++ (sep ++ rest))).getLast? = some rest := by
  intro n
  induction n with
  | zero =>
    intro pre rest hn hinf
    have hpre : pre = [] := List.length_eq_zero.mp (Nat.le_zero.mp hn)
    subst hpre
    have hs : splitFirst sep (sep ++ rest) = some ([], rest) := by
      rw [splitFirst_of_isPrefixOf sep _ (List.isPrefixOf_iff_prefix.mpr ⟨rest, rfl⟩),
        List.drop_left]
    rw [List.nil_append, pySplit_of_some sep _ [] rest hsep hs,
      pySplit_of_none sep rest ((splitFirst_none_iff sep rest).mpr hinf)]
    rfl
  | succ n ih =>
    intro pre rest hn hinf
    have hocc : sep <:+: (pre ++ (sep ++ rest)) := ⟨pre, rest, by rw [List.append_assoc]⟩
    cases hs : splitFirst sep (pre ++ (sep ++ rest)) with
    | none => exact absurd ((splitFirst_none_iff sep _).mp hs) (not_not.mpr hocc)
    | some pr =>
      obtain ⟨a, b⟩ := pr
      obtain ⟨hl, hmin⟩ := splitFirst_some_spec sep _ a b hs
      have hdropPre : (pre ++ (sep ++ rest)).drop pre.length = sep ++ rest :=
        List.drop_left pre (sep ++ rest)
      have hALe : a.length ≤ pre.length := by
        by_contra hgt
        push_neg at hgt
        exact hmin pre.length hgt
          (by rw [hdropPre]; exact List.isPrefixOf_iff_prefix.mpr ⟨rest, rfl⟩)
      rcases Nat.lt_or_ge a.length pre.length with hlt | hge
      · -- the first occurrence lies strictly inside `pre`
        have hdropA : sep ++ b = (pre.drop a.length) ++ (sep ++ rest) := by
          have e1 : (pre ++ (sep ++ rest)).drop a.length = pre.drop a.length ++ (sep ++ rest) :=
            List.drop_append_of_le_length (le_of_lt hlt)
          have e2 : (a ++ (sep ++ b)).drop a.length = sep ++ b := List.drop_left a (sep ++ b)
          rw [← e1, hl, e2]
        have ht : pre.drop a.length ≠ [] := by
          intro hnil
          have := congrArg List.length hnil
          simp at this
          omega
        have hle : sep.length ≤ (pre.drop a.length).length :=
          append_overlap_le sep (pre.drop a.length) b rest hb ht hdropA
        have hbEq : b = ((pre.drop a.length).drop sep.length) ++ (sep ++ rest) := by
          have e3 : (sep ++ b).drop sep.length = b := List.drop_left sep b
          have e4 : ((pre.drop a.length) ++ (sep ++ rest)).drop sep.length =
              (pre.drop a.length).drop sep.length ++ (sep ++ rest) :=
            List.drop_append_of_le_length hle
          rw [← e3, hdropA, e4]
        have hplen : ((pre.drop a.length).drop sep.length).length ≤ n := by
          have h0 : 0 < sep.length := List.length_pos.mpr hsep
          simp only [List.length_drop]
          omega
        have hres := ih ((pre.drop a.length).drop sep.length) rest hplen hinf
        rw [pySplit_of_some sep _ a b hsep hs,
          getLast?_cons_ne a _ (pySplit_ne_nil sep b), hbEq]
        exact hres
      · -- the first occurrence is exactly at position `pre.length`
        have heq : a.length = pre.length := le_antisymm hALe hge
        obtain ⟨rfl, htl⟩ : a = pre ∧ sep ++ b = sep ++ rest :=
          List.append_inj (hl.symm) heq
        have hbr : b = rest := List.append_cancel_left htl
        subst hbr
        rw [pySplit_of_some sep _ a b hsep hs,
          pySplit_of_none sep b ((splitFirst_none_iff sep b).mpr hinf)]
        rfl

/-- `extract_xml_answer` from `timecomp.py`:
`text.split("<answer>")[-1].split("</answer>")[0].strip()` inside
`try ... except IndexError: return ""`.  Python's `[-1]` / `[0]` are the last
and first list elements; the unreachable `IndexError` branches appear here as
the `none` branches returning `[]`. -/
def extract_xml_answer (text : List Char) : List Char :=
  match (pySplit aOpenTag text).getLast? with
  | none => []
  | some seg =>
    match (pySplit aCloseTag seg).head? with
    | none => []
    | some answer => pyStrip answer

/-- `extract_hash_answer` from `preprocess_dataset` in `timecomp.py`:
`text.split("####")[1].strip()` inside `try ... except IndexError: return
None`.  Index `1` of the split exists exactly when `"####"` occurs in the
text, so the handler fires exactly in that case. -/
def extract_hash_answer (text : List Char) : Option (List Char) :=
  match (pySplit hashSep text)[1]? with
  | none => none
  | some s => some (pyStrip s)

/-- C5: `extract_hash_answer` returns `None` exactly when the string does not
contain `"####"`; otherwise it returns the text between the first `"####"`
and the next `"####"` (or the end of the string), stripped of leading and
trailing whitespace.  "First" and "next" occurrences are expressed by the
no-earlier-occurrence side conditions. -/
theorem extract_hash_answer_spec (t : List Char) :
    (extract_hash_answer t = none ↔ ¬ hashSep <:+: t) ∧
    (∀ p m, t = p ++ (hashSep ++ m) →
      (∀ i, i < p.length → ¬ hashSep.isPrefixOf (t.drop i)) →
      ((¬ hashSep <:+: m → extract_hash_answer t = some (pyStrip m)) ∧
       (∀ m1 m2, m = m1 ++ (hashSep ++ m2) →
         (∀ j, j < m1.length → ¬ hashSep.isPrefixOf (m.drop j)) →
         extract_hash_answer t = some (pyStrip m1)))) := by
  have hsep : hashSep ≠ [] := by decide
  constructor
  · cases hs : splitFirst hashSep t with
    | none =>
      have h1 : pySplit hashSep t = [t] := pySplit_of_none _ _ hs
      refine iff_of_true ?_ ((splitFirst_none_iff hashSep t).mp hs)
      unfold extract_hash_answer
      rw [h1]
      simp
    | some pr =>
      obtain ⟨a, b⟩ := pr
      obtain ⟨hl, _⟩ := splitFirst_some_spec hashSep t a b hs
      refine iff_of_false ?_ (not_not.mpr ⟨a, b, by rw [hl, List.append_assoc]⟩)
      have h1 : pySplit hashSep t = a :: pySplit hashSep b := pySplit_of_some _ _ a b hsep hs
      unfold extract_hash_answer
      rw [h1]
      cases h3 : pySplit hashSep b with
      | nil => exact absurd h3 (pySplit_ne_nil hashSep b)
      | cons x xs => simp
  · intro p m hpm hfirst
    subst hpm
    have hs : splitFirst hashSep (p ++ (hashSep ++ m)) = some (p, m) :=
      splitFirst_of_first_occurrence hashSep p m hfirst
    have h1 : pySplit hashSep (p ++ (hashSep ++ m)) = p :: pySplit hashSep m :=
      pySplit_of_some _ _ p m hsep hs
    constructor
    · intro hm
      have h2 : pySplit hashSep m = [m] :=
        pySplit_of_none _ _ ((splitFirst_none_iff hashSep m).mpr hm)
      unfold extract_hash_answer
      rw [h1, h2]
      simp
    · intro m1 m2 hm hnext
      subst hm
      have hs2 : splitFirst hashSep (m1 ++ (hashSep ++ m2)) = some (m1, m2) :=
        splitFirst_of_first_occurrence hashSep m1 m2 hnext
      have h2 : pySplit hashSep (m1 ++ (hashSep ++ m2)) = m1 :: pySplit hashSep m2 :=
        pySplit_of_some _ _ m1 m2 hsep hs2
      unfold extract_hash_answer
      rw [h1, h2]
      simp

/-- C3: on a completion of the form `pre ++ "<answer>" ++ A ++ "</answer>" ++
suf` where `A` contains neither tag and no `"<answer>"` occurrence follows
the displayed one, `extract_xml_answer` returns `A` stripped of leading and
trailing whitespace. -/
theorem extract_xml_answer_spec (pre A suf : List Char)
    (hA1 : ¬ aOpenTag <:+: A) (hA2 : ¬ aCloseTag <:+: A)
    (hLater : ¬ aOpenTag <:+: (A ++ (aCloseTag ++ suf))) :
    extract_xml_answer (pre ++ (aOpenTag ++ (A ++ (aCloseTag ++ suf)))) = pyStrip A := by
  have hbO : bordFree aOpenTag := by unfold bordFree; decide
  have hbC : bordFree aCloseTag := by unfold bordFree; decide
  have hO : aOpenTag ≠ [] := by decide
  have hC : aCloseTag ≠ [] := by decide
  have h1 : (pySplit aOpenTag
      (pre ++ (aOpenTag ++ (A ++ (aCloseTag ++ suf))))).getLast? =
      some (A ++ (aCloseTag ++ suf)) :=
    pySplit_getLast aOpenTag hbO hO pre.length pre _ (le_refl _) hLater
  have h2 : splitFirst aCloseTag (A ++ (aCloseTag ++ suf)) = some (A, suf) :=
    splitFirst_of_first_occurrence aCloseTag A suf
      (no_early_occurrence aCloseTag A suf hbC hA2)
  have h3 : pySplit aCloseTag (A ++ (aCloseTag ++ suf)) = A :: pySplit aCloseTag suf :=
    pySplit_of_some aCloseTag _ A suf hC h2
  unfold extract_xml_answer
  rw [h1]
  simp only [h3, List.head?_cons]

/-- C6: `extract_xml_answer` always returns through the `try` branch — the
split lists are never empty, so the indexing that the `IndexError` handler
guards can never fail — and on a string containing neither tag it returns
the whole string stripped (not `""`). -/
theorem extract_xml_answer_no_index_error (t : List Char) :
    (∃ seg, (pySplit aOpenTag t).getLast? = some seg ∧
      ∃ ans, (pySplit aCloseTag seg).head? = some ans ∧
        extract_xml_answer t = pyStrip ans) ∧
    (¬ aOpenTag <:+: t → ¬ aCloseTag <:+: t → extract_xml_answer t = pyStrip t) := by
  constructor
  · have h1 : (pySplit aOpenTag t).getLast?.isSome :=
      List.getLast?_isSome.mpr (pySplit_ne_nil _ _)
    obtain ⟨seg, hseg⟩ := Option.isSome_iff_exists.mp h1
    have h2 : (pySplit aCloseTag seg).head?.isSome :=
      List.head?_isSome.mpr (pySplit_ne_nil _ _)
    obtain ⟨ans, hans⟩ := Option.isSome_iff_exists.mp h2
    refine ⟨seg, hseg, ans, hans, ?_⟩
    unfold extract_xml_answer
    rw [hseg]
    simp only [hans]
  · intro h1 h2
    have hs1 : pySplit aOpenTag t = [t] :=
      pySplit_of_none _ _ ((splitFirst_none_iff _ _).mpr h1)
    have hs2 : pySplit aCloseTag t = [t] :=
      pySplit_of_none _ _ ((splitFirst_none_iff _ _).mpr h2)
    unfold extract_xml_answer
    rw [hs1]
    simp only [List.getLast?_singleton]
    rw [hs2]
    rfl

/-- Match a literal piece of the regex at the front of the input, returning
the rest. -/
def dropLit (lit l : List Char) : Option (List Char) :=
  if lit.isPrefixOf l then some (l.drop lit.length) else none

theorem dropLit_eq_some (lit l l' : List Char) :
    dropLit lit l = some l' ↔ l = lit ++ l' := by
  unfold dropLit
  constructor
  · intro h
    by_cases hp : lit.isPrefixOf l
    · rw [if_pos hp] at h
      obtain ⟨u, hu⟩ := List.isPrefixOf_iff_prefix.mp hp
      have hd : l.drop lit.length = u := by rw [← hu, List.drop_left]
      have hu' : l' = u := by rw [← hd]; exact (Option.some.inj h).symm
      rw [hu', ← hu]
    · rw [if_neg hp] at h
      exact absurd h (by simp)
  · rintro rfl
    rw [if_pos (List.isPrefixOf_iff_prefix.mpr ⟨l', rfl⟩), List.drop_left]

/-- Match a single literal character (the `\n` of the pattern). -/
def dropChar (c : Char) : List Char → Option (List Char)
  | [] => none
  | x :: rest => if x = c then some rest else none

theorem dropChar_eq_some (c : Char) (l l' : List Char) :
    dropChar c l = some l' ↔ l = c :: l' := by
  cases l with
  | nil => simp [dropChar]
  | cons x rest =>
    simp only [dropChar]
    by_cases hx : x = c
    · subst hx
      rw [if_pos rfl]
      simp
    · rw [if_neg hx]
      refine iff_of_false (by simp) ?_
      intro heq
      exact hx (List.cons.inj heq).1

/-- The tempered-dot piece `(?:(?!stop).)*stop` of the format pattern under
Python `re` semantics: consume characters that are not a newline (`.` does
not match `\n`) and at which `stop` does not start (the `(?!stop)`
lookahead), then consume `stop`; backtracking admits no other outcome, so the
sub-match is deterministic.  Returns the input after `stop`, or `none`. -/
def temperedTo (stop : List Char) : List Char → Option (List Char)
  | [] => none
  | c :: rest =>
    if stop.isPrefixOf (c :: rest) then some ((c :: rest).drop stop.length)
    else if c = '\n' then none
    else temperedTo stop rest

theorem temperedTo_of_isPrefixOf (stop l : List Char) (hstop : stop ≠ [])
    (h : stop.isPrefixOf l) : temperedTo stop l = some (l.drop stop.length) := by
  cases l with
  | nil =>
    obtain ⟨u, hu⟩ := List.isPrefixOf_iff_prefix.mp h
    exact absurd (List.append_eq_nil.mp hu).1 hstop
  | cons c rest => simp only [temperedTo, if_pos h]

theorem temperedTo_eq_some (stop : List Char) (hstop : stop ≠ []) :
    ∀ l rest, temperedTo stop l = some rest →
      ∃ body, l = body ++ (stop ++ rest) ∧ (∀ c ∈ body, c ≠ '\n') ∧
        ¬ stop <:+: body := by
  intro l
  induction l with
  | nil => intro rest h; simp [temperedTo] at h
  | cons c tl ih =>
    intro rest h
    by_cases hp : stop.isPrefixOf (c :: tl)
    · simp only [temperedTo, if_pos hp] at h
      obtain ⟨u, hu⟩ := List.isPrefixOf_iff_prefix.mp hp
      have hd : (c :: tl).drop stop.length = u := by rw [← hu, List.drop_left]
      have hrest : rest = u := by rw [← hd]; exact (Option.some.inj h).symm
      refine ⟨[], ?_, by simp, ?_⟩
      · rw [List.nil_append, hrest, hu]
      · intro hinf
        obtain ⟨s, t, hst⟩ := hinf
        exact hstop (List.append_eq_nil.mp (List.append_eq_nil.mp hst).1).2
    · simp only [temperedTo, if_neg hp] at h
      by_cases hc : c = '\n'
      · rw [if_pos hc] at h; exact absurd h (by simp)
      · rw [if_neg hc] at h
        obtain ⟨body, hb, hbn, hbi⟩ := ih rest h
        refine ⟨c :: body, by rw [List.cons_append, hb], ?_, ?_⟩
        · intro x hx
          rcases List.mem_cons.mp hx with rfl | hx'
          · exact hc
          · exact hbn x hx'
        · intro hinf
          rcases List.infix_cons_iff.mp hinf with hpre | hinf'
          · obtain ⟨t2, ht2⟩ := hpre
            apply hp
            apply List.isPrefixOf_iff_prefix.mpr
            refine ⟨t2 ++ (stop ++ rest), ?_⟩
            rw [← List.append_assoc, ht2, List.cons_append, ← hb]
          · exact hbi hinf'

theorem temperedTo_complete (stop : List Char) (hb : bordFree stop) (hstop : stop ≠ []) :
    ∀ body rest, ¬ stop <:+: body → (∀ c ∈ body, c ≠ '\n') →
      temperedTo stop (body ++ (stop ++ rest)) = some rest := by
  intro body
  induction body with
  | nil =>
    intro rest _ _
    have hpre : stop.isPrefixOf (stop ++ rest) := List.isPrefixOf_iff_prefix.mpr ⟨rest, rfl⟩
    rw [List.nil_append, temperedTo_of_isPrefixOf stop _ hstop hpre, List.drop_left]
  | cons c body' ih =>
    intro rest hinf hnl
    have hne := no_early_occurrence stop (c :: body') rest hb hinf
    have h0 : ¬ stop.isPrefixOf (c :: (body' ++ (stop ++ rest))) := by
      have := hne 0 (by simp)
      simpa using this
    have hrw : (c :: body') ++ (stop ++ rest) = c :: (body' ++ (stop ++ rest)) := by simp
    rw [hrw]
    simp only [temperedTo, if_neg h0]
    rw [if_neg (hnl c (by simp))]
    exact ih rest (fun hi => hinf (List.infix_cons hi))
      (fun x hx => hnl x (List.mem_cons_of_mem c hx))

/-- `bool(re.match(pattern, response))` for the format pattern of
`format_reward_func` (see the file header): each regex piece translates
one-for-one into a stage of the chain, and the final alternatives realise
Python `$` (end of string, or just before one trailing newline). -/
def reMatchFormat (l : List Char) : Bool :=
  match ((((dropLit rOpenTag l).bind (temperedTo rCloseTag)).bind
      (dropChar '\n')).bind (dropLit aOpenTag)).bind (temperedTo aCloseTag) with
  | none => false
  | some t => t == [] || t == ['\n']

/-- The language accepted by the format regex under Python `re.match`
semantics: the two tagged blocks with newline-free bodies that do not contain
their closing tags, exactly one newline between the blocks, and optionally a
single trailing newline (Python `$`). -/
def amendedFormat (l : List Char) : Prop :=
  ∃ r a t,
    l = rOpenTag ++ (r ++ (rCloseTag ++ ('\n' ::
        (aOpenTag ++ (a ++ (aCloseTag ++ t)))))) ∧
      ¬ rCloseTag <:+: r ∧ '\n' ∉ r ∧ ¬ aCloseTag <:+: a ∧ '\n' ∉ a ∧
      (t = [] ∨ t = ['\n'])

theorem reMatchFormat_iff (l : List Char) : reMatchFormat l = true ↔ amendedFormat l := by
  have hbR : bordFree rCloseTag := by unfold bordFree; decide
  have hbA : bordFree aCloseTag := by unfold bordFree; decide
  have hR : rCloseTag ≠ [] := by decide
  have hA : aCloseTag ≠ [] := by decide
  constructor
  · intro h
    unfold reMatchFormat at h
    cases hx : ((((dropLit rOpenTag l).bind (temperedTo rCloseTag)).bind
        (dropChar '\n')).bind (dropLit aOpenTag)).bind (temperedTo aCloseTag) with
    | none => rw [hx] at h; simp at h
    | some t =>
      rw [hx] at h
      simp only [Option.bind_eq_some] at hx
      obtain ⟨l4, ⟨l3, ⟨l2, ⟨l1, hd1, ht1⟩, hd2⟩, hd3⟩, ht2⟩ := hx
      rw [dropLit_eq_some] at hd1 hd3
      rw [dropChar_eq_some] at hd2
      obtain ⟨r, hr, hrn, hri⟩ := temperedTo_eq_some rCloseTag hR l1 l2 ht1
      obtain ⟨a, ha, han, hai⟩ := temperedTo_eq_some aCloseTag hA l4 t ht2
      refine ⟨r, a, t, ?_, hri, fun hm => hrn '\n' hm rfl, hai,
        fun hm => han '\n' hm rfl, ?_⟩
      · rw [hd1, hr, hd2, hd3, ha]
      · simpa using h
  · rintro ⟨r, a, t, rfl, hri, hrn, hai, han, ht⟩
    unfold reMatchFormat
    have s1 : dropLit rOpenTag
        (rOpenTag ++ (r ++ (rCloseTag ++ ('\n' ::
          (aOpenTag ++ (a ++ (aCloseTag ++ t))))))) =
        some (r ++ (rCloseTag ++ ('\n' :: (aOpenTag ++ (a ++ (aCloseTag ++ t)))))) :=
      (dropLit_eq_some _ _ _).mpr rfl
    have s2 : temperedTo rCloseTag
        (r ++ (rCloseTag ++ ('\n' :: (aOpenTag ++ (a ++ (aCloseTag ++ t)))))) =
        some ('\n' :: (aOpenTag ++ (a ++ (aCloseTag ++ t)))) :=
      temperedTo_complete rCloseTag hbR hR r _ hri (fun c hc => by
        intro hcn; subst hcn; exact hrn hc)
    have s3 : dropChar '\n' ('\n' :: (aOpenTag ++ (a ++ (aCloseTag ++ t)))) =
        some (aOpenTag ++ (a ++ (aCloseTag ++ t))) := (dropChar_eq_some _ _ _).mpr rfl
    have s4 : dropLit aOpenTag (aOpenTag ++ (a ++ (aCloseTag ++ t))) =
        some (a ++ (aCloseTag ++ t)) := (dropLit_eq_some _ _ _).mpr rfl
    have s5 : temperedTo aCloseTag (a ++ (aCloseTag ++ t)) = some t :=
      temperedTo_complete aCloseTag hbA hA a _ hai (fun c hc => by
        intro hcn; subst hcn; exact han hc)
    rw [s1, Option.some_bind, s2, Option.some_bind, s3, Option.some_bind, s4,
      Option.some_bind, s5]
    rcases ht with rfl | rfl <;> simp

/-- A chat message (dict with `"role"` and `"content"`) as found in the
completions and prompts passed to the reward functions. -/
structure Message where
  role : List Char
  content : List Char
deriving DecidableEq

/-- The list comprehension
`[completion[0]["content"] for completion in completions]` shared by both
reward functions; `completion[0]` on an empty completion raises `IndexError`
(embedded as `none`). -/
def responsesOf : List (List Message) → Option (List (List Char))
  | [] => some []
  | completion :: rest =>
    match completion.head? with
    | none => none
    | some m => (responsesOf rest).map (fun rs => m.content :: rs)

theorem responsesOf_length :
    ∀ cs rs, responsesOf cs = some rs → rs.length = cs.length := by
  intro cs
  induction cs with
  | nil => intro rs h; simp [responsesOf] at h; simp [← h]
  | cons c ct ih =>
    intro rs h
    unfold responsesOf at h
    cases hm : c.head? with
    | none => rw [hm] at h; simp at h
    | some m =>
      rw [hm] at h
      simp only [Option.map_eq_some'] at h
      obtain ⟨rs', hrs', rfl⟩ := h
      simp [ih rs' hrs']

theorem responsesOf_getElem :
    ∀ cs rs, responsesOf cs = some rs →
      ∀ (i : Nat) (ci : List Message) (c0 : Message),
        cs[i]? = some ci → ci.head? = some c0 →
        rs[i]? = some c0.content := by
  intro cs
  induction cs with
  | nil => intro rs h i ci c0 hci; simp at hci
  | cons c ct ih =>
    intro rs h i ci c0 hci hc0
    unfold responsesOf at h
    cases hm : c.head? with
    | none => rw [hm] at h; simp at h
    | some m =>
      rw [hm] at h
      simp only [Option.map_eq_some'] at h
      obtain ⟨rs', hrs', rfl⟩ := h
      cases i with
      | zero =>
        simp at hci
        subst hci
        rw [hc0] at hm
        simp [Option.some.inj hm]
      | succ j =>
        simp only [List.getElem?_cons_succ] at hci ⊢
        exact ih rs' hrs' j ci c0 hci hc0

/-- `format_reward_func` from `timecomp.py`:
`responses = [completion[0]["content"] for completion in completions]`,
`matches = [bool(re.match(pattern, r)) for r in responses]`, then
`[1.0 if match else 0.0 for match in matches]`.  Reward floats 1.0/0.0 are
embedded as exact rationals. -/
def format_reward_func (completions : List (List Message)) : Option (List ℚ) :=
  (responsesOf completions).map (fun responses =>
    (responses.map (fun r => reMatchFormat r)).map
      (fun m => if m then (1 : ℚ) else 0))

/-- `correctness_reward_func` from `timecomp.py`:
`responses = [completion[0]["content"] for completion in completions]`,
`extracted_responses = [extract_xml_answer(r) for r in responses]`, a `print`
whose f-string indexes `prompts[0][-1]["content"]`, `answer[0]`,
`responses[0]` and `extracted_responses[0]` (each a possible `IndexError`,
embedded as the bound `Option` steps), then
`[2.0 if r == a else 0.0 for r, a in zip(extracted_responses, answer)]`.
`answer` entries are `str | None` as produced by the dataset mapping. -/
def correctness_reward_func (prompts : List (List Message))
    (completions : List (List Message)) (answer : List (Option (List Char))) :
    Option (List ℚ) :=
  (responsesOf completions).bind (fun responses =>
    let extracted_responses := responses.map extract_xml_answer
    ((prompts.head?.bind List.getLast?).bind (fun _ =>
      answer.head?.bind (fun _ => responses.head?))).map (fun _ =>
        (extracted_responses.zip answer).map
          (fun ra => if some ra.1 = ra.2 then (2 : ℚ) else 0)))

theorem zip_map_getElem {α β γ : Type} (f : α × β → γ) :
    ∀ (l₁ : List α) (l₂ : List β) (i : Nat) (x : α) (y : β),
      l₁[i]? = some x → l₂[i]? = some y →
      ((l₁.zip l₂).map f)[i]? = some (f (x, y)) := by
  intro l₁
  induction l₁ with
  | nil => intro l₂ i x y hx; simp at hx
  | cons a t ih =>
    intro l₂ i x y hx hy
    cases l₂ with
    | nil => simp at hy
    | cons b t₂ =>
      cases i with
      | zero =>
        simp at hx hy
        subst hx
        subst hy
        simp [List.zip_cons_cons]
      | succ j =>
        simp only [List.getElem?_cons_succ] at hx hy
        simp only [List.zip_cons_cons, List.map_cons, List.getElem?_cons_succ]
        exact ih t₂ j x y hx hy

theorem format_reward_pointwise (cs : List (List Message)) (rs : List ℚ)
    (h : format_reward_func cs = some rs) :
    rs.length = cs.length ∧
    ∀ (i : Nat) (ci : List Message) (c0 : Message),
      cs[i]? = some ci → ci.head? = some c0 →
      rs[i]? = some (if reMatchFormat c0.content then (1 : ℚ) else 0) := by
  unfold format_reward_func at h
  cases hr : responsesOf cs with
  | none => rw [hr] at h; simp at h
  | some responses =>
    rw [hr] at h
    simp only [Option.map_some'] at h
    obtain rfl := (Option.some.inj h).symm
    constructor
    · simp [responsesOf_length cs responses hr]
    · intro i ci c0 hci hc0
      have hresp : responses[i]? = some c0.content :=
        responsesOf_getElem cs responses hr i ci c0 hci hc0
      simp [List.getElem?_map, hresp]

theorem correctness_reward_pointwise (ps cs : List (List Message))
    (ans : List (Option (List Char))) (rs : List ℚ)
    (h : correctness_reward_func ps cs ans = some rs) :
    rs.length = min cs.length ans.length ∧
    ∀ (i : Nat) (ci : List Message) (c0 : Message) (a : Option (List Char)),
      cs[i]? = some ci → ci.head? = some c0 → ans[i]? = some a →
      rs[i]? = some (if some (extract_xml_answer c0.content) = a then (2 : ℚ) else 0) := by
  unfold correctness_reward_func at h
  rw [Option.bind_eq_some] at h
  obtain ⟨responses, hr, h2⟩ := h
  rw [Option.map_eq_some'] at h2
  obtain ⟨u, hu, hrs⟩ := h2
  constructor
  · rw [← hrs]
    simp [List.length_zip, responsesOf_length cs responses hr]
  · intro i ci c0 a hci hc0 ha
    have hresp := responsesOf_getElem cs responses hr i ci c0 hci hc0
    have hext : (responses.map extract_xml_answer)[i]? =
        some (extract_xml_answer c0.content) := by
      simp [List.getElem?_map, hresp]
    rw [← hrs]
    exact zip_map_getElem _ _ _ i _ a hext ha

/-- C1: for completions and ground-truth answers of equal length, the i-th
reward returned by `correctness_reward_func` is 2.0 exactly when the answer
extracted (via `extract_xml_answer`) from the i-th completion's content
equals the i-th ground truth, and 0.0 otherwise. -/
theorem correctness_reward_spec (prompts completions : List (List Message))
    (answer : List (Option (List Char))) (rewards : List ℚ)
    (hlen : completions.length = answer.length)
    (hres : correctness_reward_func prompts completions answer = some rewards)
    (i : Nat) (ci : List Message) (c0 : Message) (a : Option (List Char))
    (hci : completions[i]? = some ci) (hc0 : ci.head? = some c0)
    (ha : answer[i]? = some a) :
    rewards[i]? =
      some (if some (extract_xml_answer c0.content) = a then (2 : ℚ) else 0) :=
  (correctness_reward_pointwise prompts completions answer rewards hres).2
    i ci c0 a hci hc0 ha

/-- C2 (amended): the i-th reward of `format_reward_func` is 1.0 exactly when
the i-th completion content is, in its entirety, `<reasoning>`, reasoning
text containing neither `</reasoning>` nor a newline, `</reasoning>`, one
newline, `<answer>`, answer text containing neither `</answer>` nor a
newline, `</answer>`, optionally followed by one trailing newline; and 0.0
otherwise.  (The newline-freeness of the two texts and the optional trailing
newline are forced by Python `re` semantics: `.` does not match `\n`, and `$`
also matches just before a final newline.) -/
theorem format_reward_spec (completions : List (List Message)) (rewards : List ℚ)
    (hres : format_reward_func completions = some rewards)
    (i : Nat) (ci : List Message) (c0 : Message)
    (hci : completions[i]? = some ci) (hc0 : ci.head? = some c0) :
    (amendedFormat c0.content → rewards[i]? = some 1) ∧
    (¬ amendedFormat c0.content → rewards[i]? = some 0) := by
  have hpt := (format_reward_pointwise completions rewards hres).2 i ci c0 hci hc0
  constructor
  · intro hf
    rw [hpt, if_pos ((reMatchFormat_iff c0.content).mpr hf)]
  · intro hf
    have hne : ¬ reMatchFormat c0.content = true :=
      fun ht => hf ((reMatchFormat_iff _).mp ht)
    rw [hpt, if_neg hne]

/-- The tagged-output grammar exactly as claim C2 states it: the entire
content is `<reasoning>`, reasoning text not containing `</reasoning>`,
`</reasoning>`, one newline, `<answer>`, answer text not containing
`</answer>`, and `</answer>`. -/
def claimedFormat (l : List Char) : Prop :=
  ∃ r a, l = rOpenTag ++ (r ++ (rCloseTag ++ ('\n' :: (aOpenTag ++ (a ++ aCloseTag))))) ∧
    ¬ rCloseTag <:+: r ∧ ¬ aCloseTag <:+: a

/-- C2 as literally stated is false: this completion is of the claimed form
(reasoning text `"a\nb"`, answer text `"4"`), yet `format_reward_func`
scores it 0.0, because `.` in the pattern cannot match the newline inside
the reasoning text. -/
theorem format_reward_c2_counterexample :
    claimedFormat ("<reasoning>a\nb</reasoning>\n<answer>4</answer>".toList) ∧
    format_reward_func
      [[⟨"assistant".toList, "<reasoning>a\nb</reasoning>\n<answer>4</answer>".toList⟩]] =
      some [0] := by
  constructor
  · exact ⟨"a\nb".toList, "4".toList, by decide, by decide, by decide⟩
  · decide

/-- C7: `format_reward_func` returns one reward in {0.0, 1.0} per completion;
`correctness_reward_func` returns `min(#completions, #answers)` rewards (the
`zip` truncates to the shorter list), each in {0.0, 2.0}. -/
theorem reward_list_shapes :
    (∀ (cs : List (List Message)) (rs : List ℚ), format_reward_func cs = some rs →
      rs.length = cs.length ∧ ∀ x ∈ rs, x = 0 ∨ x = 1) ∧
    (∀ (ps cs : List (List Message)) (ans : List (Option (List Char))) (rs : List ℚ),
      correctness_reward_func ps cs ans = some rs →
      rs.length = min cs.length ans.length ∧ ∀ x ∈ rs, x = 0 ∨ x = 2) := by
  constructor
  · intro cs rs h
    refine ⟨(format_reward_pointwise cs rs h).1, ?_⟩
    unfold format_reward_func at h
    cases hr : responsesOf cs with
    | none => rw [hr] at h; simp at h
    | some responses =>
      rw [hr] at h
      simp only [Option.map_some'] at h
      obtain rfl := (Option.some.inj h).symm
      intro x hx
      obtain ⟨m, _, hm⟩ := List.mem_map.mp hx
      cases m
      · exact Or.inl (by rw [← hm]; simp)
      · exact Or.inr (by rw [← hm]; simp)
  · intro ps cs ans rs h
    refine ⟨(correctness_reward_pointwise ps cs ans rs h).1, ?_⟩
    unfold correctness_reward_func at h
    rw [Option.bind_eq_some] at h
    obtain ⟨responses, hr, h2⟩ := h
    rw [Option.map_eq_some'] at h2
    obtain ⟨u, hu, hrs⟩ := h2
    intro x hx
    rw [← hrs] at hx
    obtain ⟨ra, _, hra⟩ := List.mem_map.mp hx
    by_cases hc : some ra.1 = ra.2
    · exact Or.inr (by rw [← hra, if_pos hc])
    · exact Or.inl (by rw [← hra, if_neg hc])

theorem append_ne_nil_right {α : Type} (x y : List α) (hy : y ≠ []) : x ++ y ≠ [] :=
  fun hn => hy (List.append_eq_nil.mp hn).2

/-- C8: a completion of the well-formed tagged shape whose reasoning text or
answer text contains a newline receives reward 0.0: `.` in the pattern (no
DOTALL) cannot match a newline, and exactly one newline is allowed between
the two blocks. -/
theorem format_reward_rejects_newlines (completions : List (List Message))
    (rewards : List ℚ) (i : Nat) (ci : List Message) (c0 : Message)
    (r a : List Char)
    (hres : format_reward_func completions = some rewards)
    (hci : completions[i]? = some ci) (hc0 : ci.head? = some c0)
    (hcontent : c0.content =
      rOpenTag ++ (r ++ (rCloseTag ++ ('\n' :: (aOpenTag ++ (a ++ aCloseTag))))))
    (hnl : '\n' ∈ r ∨ '\n' ∈ a) :
    rewards[i]? = some 0 := by
  have hpt := (format_reward_pointwise completions rewards hres).2 i ci c0 hci hc0
  have hfalse : ¬ reMatchFormat c0.content = true := by
    intro ht
    obtain ⟨r', a', t, heq, _, hrn', _, han', htt⟩ := (reMatchFormat_iff _).mp ht
    -- Count the newlines of the content in the two decompositions.
    have tag0 : rOpenTag.count '\n' = 0 ∧ rCloseTag.count '\n' = 0 ∧
        aOpenTag.count '\n' = 0 ∧ aCloseTag.count '\n' = 0 := by decide
    have hcnt1 : c0.content.count '\n' = r.count '\n' + a.count '\n' + 1 := by
      rw [hcontent]
      simp [List.count_append, List.count_cons, tag0.1, tag0.2.1, tag0.2.2.1,
        tag0.2.2.2]
      omega
    have hcnt2 : c0.content.count '\n' = t.count '\n' + 1 := by
      rw [heq]
      have hr0 : r'.count '\n' = 0 := List.count_eq_zero.mpr hrn'
      have ha0 : a'.count '\n' = 0 := List.count_eq_zero.mpr han'
      simp [List.count_append, List.count_cons, tag0.1, tag0.2.1, tag0.2.2.1,
        tag0.2.2.2, hr0, ha0]
    have hpos : 0 < r.count '\n' + a.count '\n' := by
      rcases hnl with h | h
      · have := List.count_pos_iff.mpr h
        omega
      · have := List.count_pos_iff.mpr h
        omega
    have htpos : 0 < t.count '\n' := by omega
    -- Hence the trailing part must be the single newline, but then the
    -- content would end in a newline while the claimed shape ends in `>`.
    have ht1 : t = ['\n'] := by
      rcases htt with rfl | rfl
      · simp at htpos
      · rfl
    subst ht1
    have hlast1 : c0.content.getLast? = some '>' := by
      have hsplit : c0.content =
          (rOpenTag ++ (r ++ (rCloseTag ++ ('\n' ::
            (aOpenTag ++ (a ++ ['<', '/', 'a', 'n', 's', 'w', 'e', 'r'])))))) ++ ['>'] := by
        rw [hcontent]
        simp [aCloseTag, rOpenTag, rCloseTag, aOpenTag]
      rw [hsplit, List.getLast?_concat]
    have hlast2 : c0.content.getLast? = some '\n' := by
      have hsplit : c0.content =
          (rOpenTag ++ (r' ++ (rCloseTag ++ ('\n' ::
            (aOpenTag ++ (a' ++ aCloseTag)))))) ++ ['\n'] := by
        rw [heq]
        simp [aCloseTag, rOpenTag, rCloseTag, aOpenTag]
      rw [hsplit, List.getLast?_concat]
    rw [hlast1] at hlast2
    exact absurd (Option.some.inj hlast2) (by decide)
  rw [hpt, if_neg hfalse]

/-- C10: the two reward functions are deterministic — pure functions of the
completions, prompts and answers alone: two runs on identical inputs return
identical reward lists. -/
theorem reward_funcs_deterministic (prompts prompts' : List (List Message))
    (completions completions' : List (List Message))
    (answer answer' : List (Option (List Char)))
    (hc : completions = completions') (hp : prompts = prompts')
    (ha : answer = answer') :
    format_reward_func completions = format_reward_func completions' ∧
    correctness_reward_func prompts completions answer =
      correctness_reward_func prompts' completions' answer' := by
  subst hc
  subst hp
  subst ha
  exact ⟨rfl, rfl⟩

/-- The mutable timing fields of `TimingCallback` (`generation_start_time`,
`backprop_start_time`, `step_count`); timestamps produced by `time.time()`
are abstracted as rationals supplied at each call site. -/
structure TimingState where
  generation_start_time : Option ℚ
  backprop_start_time : Option ℚ
  step_count : Nat
deriving DecidableEq

/-- `TimingCallback.on_step_begin`: on gradient-accumulation boundaries,
record the current time as the start of the generation phase. -/
def on_step_begin (gradient_accumulation_steps global_step : Nat) (now : ℚ)
    (self : TimingState) : TimingState :=
  if global_step % gradient_accumulation_steps = 0 then
    { self with generation_start_time := some now }
  else self

/-- `TimingCallback.on_step_end`: on gradient-accumulation boundaries, print
the backprop latency when a measurement was started (the printed duration is
returned alongside) and count the step. -/
def on_step_end (gradient_accumulation_steps global_step : Nat) (now : ℚ)
    (self : TimingState) : TimingState × Option ℚ :=
  if global_step % gradient_accumulation_steps = 0 then
    ({ self with step_count := self.step_count + 1 },
      self.backprop_start_time.map (fun t0 => now - t0))
  else (self, none)

/-- `wrapped_generate_and_score` from `TimingCallback.patch_trainer`: call
the original method; if a generation measurement is in progress, print its
duration, start the backprop measurement at the second `time.time()` call
(`t_backprop`) and clear `generation_start_time`; return the original result
unchanged together with the updated callback state. -/
def wrapped_generate_and_score {α β : Type} (original_generate : α → β)
    (t_after t_backprop : ℚ) (self : TimingState) (args : α) : β × TimingState :=
  let result := original_generate args
  match self.generation_start_time with
  | some _ =>
    (result,
      { self with
        backprop_start_time := some t_backprop
        generation_start_time := none })
  | none => (result, self)

/-- `wrapped_compute_loss` from `patch_trainer`: time the original
`compute_loss` call and return its result unchanged; the measured duration
(the printed value) is returned alongside. -/
def wrapped_compute_loss {γ δ : Type} (original_compute_loss : γ → δ)
    (start_time end_time : ℚ) (args : γ) : δ × ℚ :=
  let result := original_compute_loss args
  (result, end_time - start_time)

/-- The two trainer methods replaced by `patch_trainer`. -/
structure PatchedTrainer (α β γ δ : Type) where
  generate_and_score : ℚ → ℚ → TimingState → α → β × TimingState
  compute_loss : ℚ → ℚ → γ → δ × ℚ

/-- `TimingCallback.patch_trainer`: install the two wrapped methods built
from the originals. -/
def patch_trainer {α β γ δ : Type} (original_generate : α → β)
    (original_compute_loss : γ → δ) : PatchedTrainer α β γ δ where
  generate_and_score := fun t1 t2 st args =>
    wrapped_generate_and_score original_generate t1 t2 st args
  compute_loss := fun t1 t2 args =>
    wrapped_compute_loss original_compute_loss t1 t2 args

/-- `patched_training_step` installed in `main`: time the original
`training_step` and return its loss unchanged; the printed total duration is
returned alongside. -/
def patched_training_step {ε ζ : Type} (original_training_step : ε → ζ)
    (step_start step_end : ℚ) (args : ε) : ζ × ℚ :=
  let loss := original_training_step args
  (loss, step_end - step_start)

/-- C4: the timing instrumentation is observationally transparent: the
wrapped `_generate_and_score_completions`, the wrapped `compute_loss` and
the patched `training_step` installed by `patch_trainer` and `main` return
exactly the value of the method they wrap, for every argument list and at
all times; only the callback's timing fields (and printed durations) change
— in particular `step_count` is untouched. -/
theorem timing_wrappers_transparent {α β γ δ ε ζ : Type}
    (original_generate : α → β) (original_compute_loss : γ → δ)
    (original_training_step : ε → ζ) (t1 t2 t3 t4 t5 t6 : ℚ)
    (st : TimingState) (a : α) (c : γ) (e : ε) :
    ((patch_trainer original_generate original_compute_loss).generate_and_score
        t1 t2 st a).1 = original_generate a ∧
    ((patch_trainer original_generate original_compute_loss).compute_loss
        t3 t4 c).1 = original_compute_loss c ∧
    (patched_training_step original_training_step t5 t6 e).1 =
      original_training_step e ∧
    ((patch_trainer original_generate original_compute_loss).generate_and_score
        t1 t2 st a).2.step_count = st.step_count := by
  refine ⟨?_, rfl, rfl, ?_⟩
  · show (wrapped_generate_and_score original_generate t1 t2 st a).1 =
      original_generate a
    unfold wrapped_generate_and_score
    cases hst : st.generation_start_time <;> rfl
  · show (wrapped_generate_and_score original_generate t1 t2 st a).2.step_count =
      st.step_count
    unfold wrapped_generate_and_score
    cases hst : st.generation_start_time <;> rfl

/-- C9: after every call to the wrapped `_generate_and_score_completions`
the callback's `generation_start_time` is `None`, so each timestamp recorded
at step begin is consumed by at most one generation-latency measurement; and
when no generation measurement was in progress the callback state is
unchanged, so `backprop_start_time` is set only when a generation
measurement was in progress. -/
theorem wrapped_generate_state_invariant {α β : Type} (original_generate : α → β)
    (t_after t_backprop : ℚ) (self : TimingState) (args : α) :
    (wrapped_generate_and_score original_generate t_after t_backprop
        self args).2.generation_start_time = none ∧
    (self.generation_start_time = none →
      (wrapped_generate_and_score original_generate t_after t_backprop
        self args).2 = self) := by
  unfold wrapped_generate_and_score
  cases hst : self.generation_start_time with
  | none => exact ⟨hst, fun _ => rfl⟩
  | some g =>
    refine ⟨rfl, ?_⟩
    intro h
    exact Option.noConfusion h

/-- Witness for C1 at a concrete input: one prompt, one completion whose
extracted answer `"4"` equals the ground truth, reward 2.0. -/
theorem correctness_reward_spec_witness :
    ([(2 : ℚ)] : List ℚ)[0]? = some (if some (extract_xml_answer
        ("<reasoning>ok</reasoning>\n<answer> 4 </answer>".toList)) =
        (some ("4".toList) : Option (List Char)) then (2 : ℚ) else 0) :=
  correctness_reward_spec
    [[⟨"user".toList, "q".toList⟩]]
    [[⟨"assistant".toList, "<reasoning>ok</reasoning>\n<answer> 4 </answer>".toList⟩]]
    [some ("4".toList)] [2] (by decide) (by decide) 0
    [⟨"assistant".toList, "<reasoning>ok</reasoning>\n<answer> 4 </answer>".toList⟩]
    ⟨"assistant".toList, "<reasoning>ok</reasoning>\n<answer> 4 </answer>".toList⟩
    (some ("4".toList)) (by decide) (by decide) (by decide)

/-- Witness for C2 (amended) at a concrete input: a well-formed completion
receives reward 1.0. -/
theorem format_reward_spec_witness : ([(1 : ℚ)] : List ℚ)[0]? = some 1 :=
  (format_reward_spec
    [[⟨"assistant".toList, "<reasoning>ok</reasoning>\n<answer>4</answer>".toList⟩]]
    [1] (by decide) 0
    [⟨"assistant".toList, "<reasoning>ok</reasoning>\n<answer>4</answer>".toList⟩]
    ⟨"assistant".toList, "<reasoning>ok</reasoning>\n<answer>4</answer>".toList⟩
    (by decide) (by decide)).1
    ⟨"ok".toList, "4".toList, [], by decide, by decide, by decide, by decide,
      by decide, Or.inl rfl⟩

/-- Witness for C3 at a concrete input. -/
theorem extract_xml_answer_spec_witness :
    extract_xml_answer (("xx".toList) ++ (aOpenTag ++ ((" 42 ".toList) ++
      (aCloseTag ++ ("yy".toList))))) = pyStrip (" 42 ".toList) :=
  extract_xml_answer_spec ("xx".toList) (" 42 ".toList) ("yy".toList)
    (by decide) (by decide) (by decide)

/-- Witness for C5 at a concrete input: `"ab#### 7 "` yields `"7"`. -/
theorem extract_hash_answer_spec_witness :
    extract_hash_answer ("ab#### 7 ".toList) = some (pyStrip (" 7 ".toList)) :=
  ((extract_hash_answer_spec ("ab#### 7 ".toList)).2 ("ab".toList) (" 7 ".toList)
    (by decide) (by decide)).1 (by decide)

/-- Witness for C6 at a concrete input: a completion without tags returns
itself stripped. -/
theorem extract_xml_answer_no_index_error_witness :
    extract_xml_answer ("hello".toList) = pyStrip ("hello".toList) :=
  (extract_xml_answer_no_index_error ("hello".toList)).2 (by decide) (by decide)

/-- Witness for C7 at concrete inputs. -/
theorem reward_list_shapes_witness :
    (([(0 : ℚ)] : List ℚ).length = [[(⟨"a".toList, "x".toList⟩ : Message)]].length ∧
      ∀ x ∈ ([(0 : ℚ)] : List ℚ), x = 0 ∨ x = 1) ∧
    (([(0 : ℚ)] : List ℚ).length = min 1 1 ∧
      ∀ x ∈ ([(0 : ℚ)] : List ℚ), x = 0 ∨ x = 2) :=
  ⟨reward_list_shapes.1 [[⟨"a".toList, "x".toList⟩]] [0] (by decide),
   reward_list_shapes.2 [[⟨"u".toList, "q".toList⟩]] [[⟨"a".toList, "x".toList⟩]]
     [some ("4".toList)] [0] (by decide)⟩

/-- Witness for C8 at a concrete input: a newline inside the reasoning text
forces reward 0.0. -/
theorem format_reward_rejects_newlines_witness :
    ([(0 : ℚ)] : List ℚ)[0]? = some 0 :=
  format_reward_rejects_newlines
    [[⟨"assistant".toList, "<reasoning>a\nb</reasoning>\n<answer>4</answer>".toList⟩]]
    [0] 0
    [⟨"assistant".toList, "<reasoning>a\nb</reasoning>\n<answer>4</answer>".toList⟩]
    ⟨"assistant".toList, "<reasoning>a\nb</reasoning>\n<answer>4</answer>".toList⟩
    ("a\nb".toList) ("4".toList)
    (by decide) (by decide) (by decide) (by decide) (Or.inl (by decide))

/-- Witness for C9 at a concrete state with no generation in progress. -/
theorem wrapped_generate_state_invariant_witness :
    ((wrapped_generate_and_score (fun n : Nat => n + 1) 1 2
      ⟨none, none, 0⟩ 5).2.generation_start_time = none) ∧
    ((wrapped_generate_and_score (fun n : Nat => n + 1) 1 2
      ⟨none, none, 0⟩ 5).2 = ⟨none, none, 0⟩) :=
  ⟨(wrapped_generate_state_invariant (fun n : Nat => n + 1) 1 2 ⟨none, none, 0⟩ 5).1,
   (wrapped_generate_state_invariant (fun n : Nat => n + 1) 1 2 ⟨none, none, 0⟩ 5).2 rfl⟩

/-- Witness for C10 at concrete (empty) inputs. -/
theorem reward_funcs_deterministic_witness :
    format_reward_func [] = format_reward_func [] ∧
    correctness_reward_func [] [] [] = correctness_reward_func [] [] [] :=
  reward_funcs_deterministic [] [] [] [] [] [] rfl rfl rfl

end Timecomp
